import Mathlib

/-!
# Verification of the outcome-distribution algebra of `dice-pool-calc`

This file embeds the core of the `dice-pool-calc` library (the `Die` class of
`src/index.ts`, with the free-function variant of `src/main.ts` for the
pool aggregator's accumulator-copying behaviour) and proves the stated
properties of its operations.

Modelling choices:
* A distribution (`Die`) wraps a map from outcome values to probability
  weights whose keys are unique under structural (deep) equality.  We embed it
  as an association list `List (α × ℚ)` in insertion order; structural
  equality of outcome values (`Immutable.is` / `fast-deep-equal`) becomes
  Lean's `=` on `α` with `[DecidableEq α]`, and the JS `number` weights become
  exact rationals `ℚ`.
* `m.set(o, (m.get(o) ?? 0) + w)` — the merge primitive every operation is
  built from — becomes `Die.accumulate`: add `w` onto the first entry whose
  key equals `o`, or append a fresh entry.
* Exceptions thrown by the JS runtime (`RangeError` from `Array(n)` with a
  negative length) become `Except String`.
* The one place the library divides (`normalize`) uses `jsDiv`, which returns
  `none` where IEEE division would produce a non-finite value (`NaN` or
  `±Infinity`, i.e. exactly when the divisor is `0`), and `some (p / q)`
  otherwise.
-/

set_option autoImplicit false

universe u v w

variable {α : Type u} {β : Type v} {γ : Type w}

/-- A distribution: the entries of the outcome map of a `Die`, in insertion
order.  Each entry pairs an outcome value with its probability weight. -/
abbrev Outcomes (α : Type u) : Type u := List (α × ℚ)

/-- Total weight of a distribution: the sum of all entry weights (the
`reduce((sum, probability) => sum + probability, 0)` of the source). -/
def total (d : Outcomes α) : ℚ :=
  (d.map (fun e => e.2)).sum

/-- The semantic weight a distribution assigns to the outcome `v`: the sum of
the weights of all entries whose outcome is structurally equal to `v`. -/
def sumWeight [DecidableEq α] (v : α) (d : Outcomes α) : ℚ :=
  (d.map (fun e => if e.1 = v then e.2 else 0)).sum

/-- Weighted sum of a function over a distribution's entries; the abstraction
used to reason about merge steps (both `total` and `sumWeight` are
instances). -/
def weightedSum (F : α → ℚ) (d : Outcomes α) : ℚ :=
  (d.map (fun e => e.2 * F e.1)).sum

/-- Structural-equality lookup (`get`): the weight of the first entry whose
outcome equals `v`, or `none` when no entry matches. -/
def getWeight [DecidableEq α] (d : Outcomes α) (v : α) : Option ℚ :=
  (d.find? (fun e => decide (e.1 = v))).map (fun e => e.2)

/-- The merge primitive `m.set(v, (m.get(v) ?? 0) + w)` (immutable-`Map.set`
in `index.ts`, `injectRollRecord` in `main.ts`, `Die.accumulate` in the
`Map`-based rewrites): add `w` to the first entry structurally equal to `v`,
or append a fresh entry `(v, w)`. -/
def Die.accumulate [DecidableEq α] : Outcomes α → α → ℚ → Outcomes α
  | [], v, w => [(v, w)]
  | e :: rest, v, w =>
    if e.1 = v then (e.1, e.2 + w) :: rest else e :: Die.accumulate rest v w

/-- The `set` map access of the `Map`-based rewrites (`dice.ts`): overwrite
the weight of the first entry structurally equal to `v`, or append. -/
def Die.set [DecidableEq α] : Outcomes α → α → ℚ → Outcomes α
  | [], v, w => [(v, w)]
  | e :: rest, v, w =>
    if e.1 = v then (e.1, w) :: rest else e :: Die.set rest v w

/-- Accumulate a whole list of produced entries into a distribution, in
order: the `forEach`/nested-loop accumulation pattern every combinator uses
to build its result. -/
def injectAll [DecidableEq α] (m : Outcomes α) (es : List (α × ℚ)) : Outcomes α :=
  es.foldl (fun acc e => Die.accumulate acc e.1 e.2) m

/-- The keys of a distribution have no structural duplicates. -/
def nodupKeys (d : Outcomes α) : Prop :=
  (d.map (fun e => e.1)).Nodup

/-- `Die.d(numSides)` from `index.ts`: `Array(numSides).fill(0).map((_, id)
=> [id + 1, 1 / numSides])`.  `Array(n)` throws a `RangeError` for a negative
length, and produces an empty array for `n = 0`. -/
def Die.d (numSides : ℤ) : Except String (Outcomes ℤ) :=
  if numSides < 0 then Except.error "RangeError: Invalid array length"
  else Except.ok
    ((List.range numSides.toNat).map (fun id : ℕ => ((id : ℤ) + 1, 1 / (numSides : ℚ))))

/-- `Die.nd(numDice, numSides)`: `numDice` identical copies of
`Die.d(numSides)`. -/
def Die.nd (numDice : ℕ) (numSides : ℤ) : Except String (List (Outcomes ℤ)) :=
  (Die.d numSides).map (fun die => List.replicate numDice die)

/-- `Die.pair(combine, dieA, dieB)` from `index.ts`: for every outcome pair
of the cross product (outer loop over `dieA`, inner over `dieB`) accumulate
`combine(a, b)` with weight `probabilityA * probabilityB` into a fresh
distribution. -/
def Die.pair [DecidableEq γ] (combine : α → β → γ) (dieA : Outcomes α) (dieB : Outcomes β) : Outcomes γ :=
  injectAll []
    (dieA.flatMap (fun ea => dieB.map (fun eb => (combine ea.1 eb.1, ea.2 * eb.2))))

/-- One fold step of `Die.pool`: combine the running distribution over
accumulator values with the next die (outer loop over the die's entries,
inner over the accumulated entries), accumulating
`accumulatorCallback(accumulatedOutcome, dieOutcome)` with weight
`accumulatedProbability * dieProbability` into a fresh distribution. -/
def poolStep [DecidableEq β] (acc : β → α → β) (accumulated : Outcomes β) (die : Outcomes α) : Outcomes β :=
  injectAll []
    (die.flatMap (fun de => accumulated.map (fun ae => (acc ae.1 de.1, ae.2 * de.2))))

/-- `Die.pool(accumulatorCallback, initial, dice)` from `index.ts`: left fold
of `poolStep` over the dice, seeded with the one-entry distribution
`{initial: 1}`. -/
def Die.pool [DecidableEq β] (acc : β → α → β) (initial : β) (dice : List (Outcomes α)) : Outcomes β :=
  dice.foldl (poolStep acc) [(initial, 1)]

/-- `die.interpret(f)` from `index.ts`: accumulate `f(outcome)` with the
outcome's weight, for every entry in order, into a fresh distribution. -/
def Die.interpret [DecidableEq β] (f : α → β) (die : Outcomes α) : Outcomes β :=
  injectAll [] (die.map (fun e => (f e.1, e.2)))

/-- `die.reroll(f)` from `index.ts`: for every entry `(oldOutcome,
oldProbability)` and every entry `(newOutcome, newProbability)` of
`f(oldOutcome)`, accumulate `newOutcome` with weight
`newProbability * oldProbability` into a fresh distribution. -/
def Die.reroll [DecidableEq β] (f : α → Outcomes β) (die : Outcomes α) : Outcomes β :=
  injectAll []
    (die.flatMap (fun e => (f e.1).map (fun e2 => (e2.1, e2.2 * e.2))))

/-- JS floating-point division as the library uses it: dividing by `0` yields
a non-finite value (`NaN` when the numerator is `0`, `±Infinity` otherwise),
modelled as `none`; any other division is exact rational division. -/
def jsDiv (p q : ℚ) : Option ℚ :=
  if q = 0 then none else some (p / q)

/-- `die.normalize()` from `index.ts`: sum all weights, then build and return
a new distribution in which every weight is divided by that sum.  There is no
zero-total check in the source; the division is `jsDiv`. -/
def Die.normalize (d : Outcomes α) : List (α × Option ℚ) :=
  d.map (fun e => (e.1, jsDiv e.2 (total d)))

/-! ## Basic lemmas about the merge primitive -/

theorem weightedSum_nil (F : α → ℚ) : weightedSum F ([] : Outcomes α) = 0 := rfl

theorem weightedSum_cons (F : α → ℚ) (e : α × ℚ) (d : Outcomes α) :
    weightedSum F (e :: d) = e.2 * F e.1 + weightedSum F d := by
  simp [weightedSum]

theorem weightedSum_accumulate [DecidableEq α] (F : α → ℚ) (m : Outcomes α) (v : α) (w : ℚ) :
    weightedSum F (Die.accumulate m v w) = weightedSum F m + w * F v := by
  induction m with
  | nil => simp [Die.accumulate, weightedSum]
  | cons e rest ih =>
    by_cases h : e.1 = v
    · subst h
      simp [Die.accumulate, weightedSum_cons, add_mul]
      ring
    · simp [Die.accumulate, h, weightedSum_cons, ih]
      ring

theorem weightedSum_injectAll [DecidableEq α] (F : α → ℚ) (m : Outcomes α) (es : List (α × ℚ)) :
    weightedSum F (injectAll m es) = weightedSum F m + weightedSum F es := by
  induction es generalizing m with
  | nil => simp [injectAll, weightedSum]
  | cons e rest ih =>
    simp only [injectAll, List.foldl_cons] at *
    rw [ih, weightedSum_accumulate, weightedSum_cons]
    ring

theorem total_eq_weightedSum (d : Outcomes α) : total d = weightedSum (fun _ => 1) d := by
  simp [total, weightedSum]

theorem sumWeight_eq_weightedSum [DecidableEq α] (v : α) (d : Outcomes α) :
    sumWeight v d = weightedSum (fun u => if u = v then 1 else 0) d := by
  simp [sumWeight, weightedSum, mul_ite, mul_one, mul_zero]

theorem total_accumulate [DecidableEq α] (m : Outcomes α) (v : α) (w : ℚ) :
    total (Die.accumulate m v w) = total m + w := by
  simp [total_eq_weightedSum, weightedSum_accumulate]

theorem total_injectAll [DecidableEq α] (m : Outcomes α) (es : List (α × ℚ)) :
    total (injectAll m es) = total m + total es := by
  simp [total_eq_weightedSum, weightedSum_injectAll]

theorem sumWeight_injectAll [DecidableEq α] (v : α) (m : Outcomes α) (es : List (α × ℚ)) :
    sumWeight v (injectAll m es) = sumWeight v m + sumWeight v es := by
  simp [sumWeight_eq_weightedSum, weightedSum_injectAll]

/-! ## Keys of a distribution after a merge -/

theorem keys_accumulate [DecidableEq α] (m : Outcomes α) (v : α) (w : ℚ) :
    (Die.accumulate m v w).map (fun e => e.1) =
      if v ∈ m.map (fun e => e.1) then m.map (fun e => e.1)
      else m.map (fun e => e.1) ++ [v] := by
  induction m with
  | nil => simp [Die.accumulate]
  | cons e rest ih =>
    by_cases h : e.1 = v
    · subst h
      simp [Die.accumulate]
    · have h2 : ¬ v = e.1 := fun hc => h hc.symm
      simp [Die.accumulate, h, ih, h2]
      by_cases hmem : v ∈ rest.map (fun e => e.1) <;> simp [hmem, h2]

theorem keys_set [DecidableEq α] (m : Outcomes α) (v : α) (w : ℚ) :
    (Die.set m v w).map (fun e => e.1) =
      if v ∈ m.map (fun e => e.1) then m.map (fun e => e.1)
      else m.map (fun e => e.1) ++ [v] := by
  induction m with
  | nil => simp [Die.set]
  | cons e rest ih =>
    by_cases h : e.1 = v
    · subst h
      simp [Die.set]
    · have h2 : ¬ v = e.1 := fun hc => h hc.symm
      simp [Die.set, h, ih, h2]
      by_cases hmem : v ∈ rest.map (fun e => e.1) <;> simp [hmem, h2]

theorem nodupKeys_of_keys_ite [DecidableEq α] {m : Outcomes α} {ks : List α} {v : α}
    (hk : ks = if v ∈ m.map (fun e => e.1) then m.map (fun e => e.1)
      else m.map (fun e => e.1) ++ [v])
    (h : nodupKeys m) : ks.Nodup := by
  by_cases hmem : v ∈ m.map (fun e => e.1)
  · rw [hk, if_pos hmem]; exact h
  · rw [hk, if_neg hmem]
    refine List.Nodup.append h (List.nodup_singleton v) ?_
    intro x hx hxv
    rw [List.mem_singleton] at hxv
    exact hmem (hxv ▸ hx)

theorem nodupKeys_accumulate [DecidableEq α] {m : Outcomes α} (h : nodupKeys m)
    (v : α) (w : ℚ) : nodupKeys (Die.accumulate m v w) :=
  nodupKeys_of_keys_ite (keys_accumulate m v w) h

theorem nodupKeys_set [DecidableEq α] {m : Outcomes α} (h : nodupKeys m)
    (v : α) (w : ℚ) : nodupKeys (Die.set m v w) :=
  nodupKeys_of_keys_ite (keys_set m v w) h

theorem nodupKeys_injectAll [DecidableEq α] {m : Outcomes α} (h : nodupKeys m)
    (es : List (α × ℚ)) : nodupKeys (injectAll m es) := by
  induction es generalizing m with
  | nil => exact h
  | cons e rest ih =>
    simp only [injectAll, List.foldl_cons]
    exact ih (nodupKeys_accumulate h e.1 e.2)

theorem nodupKeys_nil : nodupKeys ([] : Outcomes α) := List.nodup_nil

theorem nodupKeys_singleton (e : α × ℚ) : nodupKeys [e] := List.nodup_singleton e.1

/-! ## Totals and weights of the cross-product entry lists -/

theorem total_append (l1 l2 : Outcomes α) : total (l1 ++ l2) = total l1 + total l2 := by
  simp [total]

theorem sumWeight_append [DecidableEq α] (v : α) (l1 l2 : Outcomes α) :
    sumWeight v (l1 ++ l2) = sumWeight v l1 + sumWeight v l2 := by
  simp [sumWeight]

theorem total_map_mul_left (l : Outcomes γ) (key : γ × ℚ → β) (w : ℚ) :
    total (l.map (fun e => (key e, w * e.2))) = w * total l := by
  induction l with
  | nil => simp [total]
  | cons e rest ih => simp [total, mul_add] at *; simp [ih]

theorem total_map_mul_right (l : Outcomes γ) (key : γ × ℚ → β) (w : ℚ) :
    total (l.map (fun e => (key e, e.2 * w))) = total l * w := by
  induction l with
  | nil => simp [total]
  | cons e rest ih => simp [total, add_mul] at *; simp [ih]

theorem sumWeight_map_mul_right [DecidableEq β] (v : β) (l : Outcomes β) (w : ℚ) :
    sumWeight v (l.map (fun e => (e.1, e.2 * w))) = sumWeight v l * w := by
  induction l with
  | nil => simp [sumWeight]
  | cons e rest ih =>
    simp only [List.map_cons, sumWeight, List.sum_cons] at ih ⊢
    by_cases h : e.1 = v
    · simp only [if_pos h]
      rw [ih]
      ring
    · simp only [if_neg h]
      rw [ih]
      ring

/-- Total of the row-major cross-product entry list (the `pair` shape, where
the scalar entry weight multiplies on the left). -/
theorem total_cross_left (dieA : Outcomes α) (dieB : Outcomes β)
    (k : α × ℚ → β × ℚ → γ) :
    total (dieA.flatMap (fun ea => dieB.map (fun eb => (k ea eb, ea.2 * eb.2)))) =
      total dieA * total dieB := by
  induction dieA with
  | nil => simp [total]
  | cons ea rest ih =>
    rw [List.flatMap_cons, total_append, ih,
      total_map_mul_left dieB (fun eb => k ea eb) ea.2]
    simp [total, add_mul]

/-- Total of the cross-product entry list in the `pool`/`reroll` shape, where
the scalar entry weight multiplies on the right. -/
theorem total_cross_right (die : Outcomes α) (accumulated : Outcomes β)
    (k : α × ℚ → β × ℚ → γ) :
    total (die.flatMap (fun de => accumulated.map (fun ae => (k de ae, ae.2 * de.2)))) =
      total accumulated * total die := by
  induction die with
  | nil => simp [total]
  | cons de rest ih =>
    rw [List.flatMap_cons, total_append, ih,
      total_map_mul_right accumulated (fun ae => k de ae) de.2]
    simp [total, mul_add]

/-- C6 (main part): the total weight of `pair` is the product of the input
totals. -/
theorem total_pair [DecidableEq γ] (combine : α → β → γ) (dieA : Outcomes α) (dieB : Outcomes β) :
    total (Die.pair combine dieA dieB) = total dieA * total dieB := by
  rw [Die.pair, total_injectAll,
    total_cross_left dieA dieB (fun ea eb => combine ea.1 eb.1)]
  simp [total]

/-- C10 (step): the total weight of one pool fold step is the product of the
running total and the die's total. -/
theorem total_poolStep [DecidableEq β] (acc : β → α → β) (accumulated : Outcomes β) (die : Outcomes α) :
    total (poolStep acc accumulated die) = total accumulated * total die := by
  rw [poolStep, total_injectAll,
    total_cross_right die accumulated (fun de ae => acc ae.1 de.1)]
  simp [total]

theorem total_foldl_poolStep [DecidableEq β] (acc : β → α → β) (dice : List (Outcomes α)) :
    ∀ d0 : Outcomes β, total (dice.foldl (poolStep acc) d0) = total d0 * (dice.map total).prod := by
  induction dice with
  | nil => intro d0; simp
  | cons die rest ih =>
    intro d0
    rw [List.foldl_cons, ih, total_poolStep]
    simp [mul_assoc]

theorem sumWeight_reroll_cross [DecidableEq β] (v : β) (f : α → Outcomes β) (die : Outcomes α) :
    sumWeight v (die.flatMap (fun e => (f e.1).map (fun e2 => (e2.1, e2.2 * e.2)))) =
      (die.map (fun e => sumWeight v (f e.1) * e.2)).sum := by
  induction die with
  | nil => simp [sumWeight]
  | cons e rest ih =>
    rw [List.flatMap_cons, sumWeight_append, ih, sumWeight_map_mul_right]
    simp

theorem total_reroll_cross (f : α → Outcomes β) (die : Outcomes α) :
    total (die.flatMap (fun e => (f e.1).map (fun e2 => (e2.1, e2.2 * e.2)))) =
      (die.map (fun e => total (f e.1) * e.2)).sum := by
  induction die with
  | nil => simp [total]
  | cons e rest ih =>
    rw [List.flatMap_cons, total_append, ih,
      total_map_mul_right (f e.1) (fun e2 => e2.1) e.2]
    simp

/-- C6: for every combine function and all distributions `A` and `B`, the
total weight of `pair(combine, A, B)` equals `total A * total B`; in
particular normalized inputs yield a normalized output. -/
theorem pair_total_product [DecidableEq γ] (combine : α → β → γ) (dieA : Outcomes α) (dieB : Outcomes β) :
    total (Die.pair combine dieA dieB) = total dieA * total dieB ∧
    (total dieA = 1 → total dieB = 1 → total (Die.pair combine dieA dieB) = 1) := by
  refine ⟨total_pair combine dieA dieB, fun h1 h2 => ?_⟩
  rw [total_pair combine dieA dieB, h1, h2, mul_one]

theorem pair_total_product_witness :
    total (Die.pair (fun a b => a + b) [((1:ℤ), (1:ℚ))] [((2:ℤ), (1:ℚ))]) = 1 :=
  (pair_total_product (fun a b => a + b) [((1:ℤ), (1:ℚ))] [((2:ℤ), (1:ℚ))]).2
    (by norm_num [total]) (by norm_num [total])

/-- C10: the total weight of `pool` is the product of the input totals (the
empty product `1` for an empty pool), so pooling normalized distributions
yields a normalized distribution. -/
theorem pool_total_product [DecidableEq β] (acc : β → α → β) (initial : β) (dice : List (Outcomes α)) :
    total (Die.pool acc initial dice) = (dice.map total).prod ∧
    ((∀ d ∈ dice, total d = 1) → total (Die.pool acc initial dice) = 1) := by
  have h1 : total (Die.pool acc initial dice) = (dice.map total).prod := by
    rw [Die.pool, total_foldl_poolStep]
    simp [total]
  refine ⟨h1, fun hall => ?_⟩
  rw [h1]
  refine List.prod_eq_one ?_
  intro x hx
  obtain ⟨d, hd, rfl⟩ := List.mem_map.mp hx
  exact hall d hd

theorem pool_total_product_witness :
    total (Die.pool (fun (u t : ℤ) => u + t) 0 [[((1:ℤ), (1:ℚ))], [((2:ℤ), (1:ℚ))]]) = 1 :=
  (pool_total_product (fun (u t : ℤ) => u + t) 0 [[((1:ℤ), (1:ℚ))], [((2:ℤ), (1:ℚ))]]).2
    (by intro d hd; simp only [List.mem_cons, List.not_mem_nil, or_false] at hd
        rcases hd with rfl | rfl <;> norm_num [total])

/-- C4: `interpret(f, die)` preserves the total weight, and assigns to every
value `v` the summed weight of all entries of `die` whose outcome `f` maps to
a value structurally equal to `v`. -/
theorem interpret_merges_and_preserves_total [DecidableEq β] (f : α → β) (die : Outcomes α) :
    total (Die.interpret f die) = total die ∧
    ∀ v, sumWeight v (Die.interpret f die) =
      (die.map (fun e => if f e.1 = v then e.2 else 0)).sum := by
  constructor
  · rw [Die.interpret, total_injectAll]
    simp [total, List.map_map, Function.comp_def]
  · intro v
    rw [Die.interpret, sumWeight_injectAll]
    simp [sumWeight, List.map_map, Function.comp_def]

/-- C7: `reroll(f, die)` assigns to every value `v` the sum over the entries
`(o, w)` of `die` of `w` times the weight `f(o)` assigns to `v` (flattening
with merge across original outcomes); its total weight is the corresponding
mixture of the branch totals, so a normalized input with normalized branch
distributions yields a normalized output. -/
theorem reroll_flattens_and_preserves_total [DecidableEq β] (f : α → Outcomes β) (die : Outcomes α) :
    (∀ v, sumWeight v (Die.reroll f die) = (die.map (fun e => sumWeight v (f e.1) * e.2)).sum) ∧
    total (Die.reroll f die) = (die.map (fun e => total (f e.1) * e.2)).sum ∧
    (total die = 1 → (∀ e ∈ die, total (f e.1) = 1) → total (Die.reroll f die) = 1) := by
  have hw : ∀ v, sumWeight v (Die.reroll f die) =
      (die.map (fun e => sumWeight v (f e.1) * e.2)).sum := by
    intro v
    rw [Die.reroll, sumWeight_injectAll, sumWeight_reroll_cross]
    simp [sumWeight]
  have ht : total (Die.reroll f die) = (die.map (fun e => total (f e.1) * e.2)).sum := by
    rw [Die.reroll, total_injectAll, total_reroll_cross]
    simp [total]
  refine ⟨hw, ht, fun h1 hall => ?_⟩
  rw [ht]
  have hcongr : die.map (fun e => total (f e.1) * e.2) = die.map (fun e => e.2) :=
    List.map_congr_left (fun e he => by rw [hall e he, one_mul])
  rw [hcongr]
  exact h1

theorem reroll_witness :
    total (Die.reroll (fun _ : ℤ => [((0:ℤ), (1:ℚ))]) [((1:ℤ), (1:ℚ))]) = 1 :=
  (reroll_flattens_and_preserves_total (fun _ : ℤ => [((0:ℤ), (1:ℚ))]) [((1:ℤ), (1:ℚ))]).2.2
    (by norm_num [total]) (by intro e he; norm_num [total])

/-! ## Key uniqueness of every produced distribution -/

theorem sumWeight_accumulate_self [DecidableEq α] (m : Outcomes α) (k : α) (w : ℚ) :
    sumWeight k (Die.accumulate m k w) = sumWeight k m + w := by
  rw [sumWeight_eq_weightedSum, sumWeight_eq_weightedSum, weightedSum_accumulate]
  simp

theorem nodupKeys_foldl_poolStep [DecidableEq β] (acc : β → α → β) (dice : List (Outcomes α)) :
    ∀ d0 : Outcomes β, nodupKeys d0 → nodupKeys (dice.foldl (poolStep acc) d0) := by
  induction dice with
  | nil => intro d0 h; exact h
  | cons die rest ih =>
    intro d0 _
    rw [List.foldl_cons]
    exact ih _ (nodupKeys_injectAll nodupKeys_nil _)

theorem nodupKeys_d (n : ℤ) (dist : Outcomes ℤ) (h : Die.d n = Except.ok dist) :
    nodupKeys dist := by
  unfold Die.d at h
  by_cases hneg : n < 0
  · rw [if_pos hneg] at h
    exact absurd h (by simp)
  · rw [if_neg hneg] at h
    injection h with h
    subst h
    unfold nodupKeys
    rw [List.map_map]
    have hcomp : ((fun e : ℤ × ℚ => e.1) ∘ (fun id : ℕ => ((id : ℤ) + 1, 1 / (n : ℚ)))) =
        (fun id : ℕ => (id : ℤ) + 1) := rfl
    rw [hcomp]
    refine List.Nodup.map (fun a b hab => ?_) (List.nodup_range _)
    omega

/-- C2: no distribution produced by the public operations carries two
structurally-equal outcomes.  `pair`, `pool`, `interpret` and `reroll` build
their outcome maps through the merge primitive, so their key lists are
duplicate-free; `d` enumerates the distinct outcomes `1..n`; the
`set`/`accumulate` map accesses preserve key uniqueness; and accumulating a
structurally duplicate key leaves the key set unchanged while the weights of
the two records are summed into the one surviving record. -/
theorem outcome_map_keys_nodup_and_merge [DecidableEq α] [DecidableEq β] [DecidableEq γ]
    (combine : α → β → γ) (dieA : Outcomes α) (dieB : Outcomes β)
    (acc : γ → α → γ) (initial : γ) (dice : List (Outcomes α))
    (f : α → β) (g : α → Outcomes β) (die : Outcomes α)
    (m : Outcomes α) (k : α) (w : ℚ) :
    nodupKeys (Die.pair combine dieA dieB) ∧
    nodupKeys (Die.pool acc initial dice) ∧
    nodupKeys (Die.interpret f die) ∧
    nodupKeys (Die.reroll g die) ∧
    (∀ n dist, Die.d n = Except.ok dist → nodupKeys dist) ∧
    (nodupKeys m → nodupKeys (Die.accumulate m k w) ∧ nodupKeys (Die.set m k w)) ∧
    (k ∈ m.map (fun e => e.1) →
      (Die.accumulate m k w).map (fun e => e.1) = m.map (fun e => e.1) ∧
      sumWeight k (Die.accumulate m k w) = sumWeight k m + w) ∧
    (k ∉ m.map (fun e => e.1) → Die.accumulate m k w = m ++ [(k, w)]) := by
  refine ⟨nodupKeys_injectAll nodupKeys_nil _,
    nodupKeys_foldl_poolStep acc dice _ (nodupKeys_singleton _),
    nodupKeys_injectAll nodupKeys_nil _,
    nodupKeys_injectAll nodupKeys_nil _,
    nodupKeys_d,
    fun h => ⟨nodupKeys_accumulate h k w, nodupKeys_set h k w⟩,
    fun hmem => ⟨by rw [keys_accumulate, if_pos hmem], sumWeight_accumulate_self m k w⟩,
    fun hmem => ?_⟩
  induction m with
  | nil => simp [Die.accumulate]
  | cons e rest ih =>
    simp only [List.map_cons, List.mem_cons, not_or] at hmem
    have h1 : ¬ e.1 = k := fun hc => hmem.1 hc.symm
    simp [Die.accumulate, h1, ih hmem.2]

theorem outcome_map_keys_nodup_and_merge_witness :
    Die.accumulate [([1, 2], (1:ℚ)/2)] [1, 2] (1/2) = [([1, 2], (1:ℚ))] ∧
    (Die.accumulate [([1, 2], (1:ℚ)/2)] [1, 2] (1/2)).map (fun e => e.1) = [[1, 2]] ∧
    nodupKeys (Die.pair (fun (a b : List ℕ) => a ++ b)
      [([1, 2], (1:ℚ)/2), ([3], (1:ℚ)/2)] [([9], (1:ℚ))]) := by
  have h := outcome_map_keys_nodup_and_merge (fun (a b : List ℕ) => a ++ b)
    [([1, 2], (1:ℚ)/2), ([3], (1:ℚ)/2)] [([9], (1:ℚ))] (fun u _ => u) [] []
    id (fun _ => []) [] [([1, 2], (1:ℚ)/2)] [1, 2] (1/2)
  refine ⟨by norm_num [Die.accumulate], ((h.2.2.2.2.2.2.1 (by decide)).1).trans (by decide), h.1⟩

/-! ## `normalize` and the constructor boundary -/

/-- C3 (evaluation at the failing input): `normalize` of the distribution
`{1: 2}` produces a fresh value `{1: 1}` — each weight divided by the total.
The source builds and returns this as a new `Die` (`return new
Die(this.outcomes.map(...))`), leaving the receiver untouched, although the
method's own documentation comment says the rescale happens in place without
creating a new die. -/
theorem normalize_rescales_eval :
    Die.normalize [((1:ℤ), (2:ℚ))] = [((1:ℤ), some (1:ℚ))] := by
  norm_num [Die.normalize, total, jsDiv]

/-- C9 (counterexample): on a distribution with total weight `0`, `normalize`
does not fail — it returns a distribution whose weight is the non-finite
result of dividing by zero (`0/0 = NaN` in JS, modelled as `none`). -/
theorem normalize_zero_total_nonfinite :
    Die.normalize [((1:ℤ), (0:ℚ))] = [((1:ℤ), (none : Option ℚ))] := by
  norm_num [Die.normalize, total, jsDiv]

/-- C9 (amended): `normalize` has no zero-total check; on any distribution
whose weights sum to `0` it silently returns the distribution with every
weight replaced by the non-finite result of division by zero (and the empty
distribution maps to the empty distribution). -/
theorem normalize_zero_total_no_error (d : Outcomes α) (h : total d = 0) :
    Die.normalize d = d.map (fun e => (e.1, (none : Option ℚ))) := by
  unfold Die.normalize
  rw [h]
  simp [jsDiv]

theorem normalize_zero_total_no_error_witness :
    total [((1:ℤ), (3:ℚ)), ((2:ℤ), (-3:ℚ))] = 0 ∧
    Die.normalize [((1:ℤ), (3:ℚ)), ((2:ℤ), (-3:ℚ))] =
      [((1:ℤ), (none : Option ℚ)), ((2:ℤ), (none : Option ℚ))] :=
  ⟨by norm_num [total],
    (normalize_zero_total_no_error _ (by norm_num [total])).trans (by norm_num)⟩

/-- C8 (counterexample): `d(0)` does not reject the non-positive side count
`0`; it successfully returns an empty distribution. -/
theorem d_zero_ok_empty :
    Die.d 0 = Except.ok ([] : Outcomes ℤ) ∧ ∀ msg, Die.d 0 ≠ Except.error msg := by
  refine ⟨by norm_num [Die.d], fun msg h => ?_⟩
  rw [Die.d] at h
  norm_num at h
  exact Except.noConfusion h

/-- C8 (amended): the constructors perform no explicit validation at the call
boundary.  `d(0)` returns the empty distribution without any error; `d(n)`
for `n < 0` fails only with the `RangeError` that `Array(n)` itself throws;
every successfully returned distribution has non-negative weights; and
`nd(count, 0)` likewise returns `count` empty distributions without error. -/
theorem d_boundary_behavior (n : ℤ) :
    (n = 0 → Die.d n = Except.ok []) ∧
    (n < 0 → Die.d n = Except.error "RangeError: Invalid array length") ∧
    (∀ dist, Die.d n = Except.ok dist → ∀ e ∈ dist, 0 ≤ e.2) ∧
    (∀ numDice : ℕ, n = 0 → Die.nd numDice n = Except.ok (List.replicate numDice [])) := by
  refine ⟨fun h0 => by subst h0; norm_num [Die.d],
    fun hneg => by rw [Die.d, if_pos hneg],
    fun dist hok e he => ?_,
    fun numDice h0 => by subst h0; rfl⟩
  rw [Die.d] at hok
  by_cases hneg : n < 0
  · rw [if_pos hneg] at hok
    exact absurd hok (by simp)
  · rw [if_neg hneg] at hok
    injection hok with hok
    subst hok
    obtain ⟨id, _, rfl⟩ := List.mem_map.mp he
    have hn : (0:ℚ) ≤ (n:ℚ) := by exact_mod_cast le_of_not_lt hneg
    simpa using one_div_nonneg.mpr hn

theorem d_boundary_behavior_witness :
    Die.d (-1) = Except.error "RangeError: Invalid array length" ∧
    Die.nd 2 0 = Except.ok [[], []] ∧
    (∀ e ∈ [((1:ℤ), (1:ℚ)/2), ((2:ℤ), (1:ℚ)/2)], (0:ℚ) ≤ e.2) :=
  ⟨(d_boundary_behavior (-1)).2.1 (by norm_num),
    ((d_boundary_behavior 0).2.2.2 2 rfl).trans rfl,
    (d_boundary_behavior 2).2.2.1 _ (by
      rw [Die.d, if_neg (by norm_num)]
      have h2 : Int.toNat 2 = 2 := rfl
      rw [h2]
      simp [List.range_succ])⟩

/-! ## C1: the pool aggregator refines the naive joint enumeration -/

/-- Modelled from the spec (reference semantics for `pool`): every joint
assignment of one outcome to each distribution in the sequence, paired with
the product of the chosen outcomes' weights. -/
def jointAssignments : List (Outcomes α) → List (List α × ℚ)
  | [] => [([], 1)]
  | d :: ds =>
    d.flatMap (fun e => (jointAssignments ds).map (fun p => (e.1 :: p.1, e.2 * p.2)))

/-- Modelled from the spec (reference semantics for `pool`): the weight the
naive computation assigns to the accumulator value `v` — over every joint
assignment, fold the accumulator function left-to-right starting from
`initial`, and sum the weights of the assignments whose fold result is
structurally equal to `v`. -/
def naivePoolWeight [DecidableEq β] (acc : β → α → β) (initial : β)
    (ds : List (Outcomes α)) (v : β) : ℚ :=
  ((jointAssignments ds).map (fun p => if p.1.foldl acc initial = v then p.2 else 0)).sum

theorem naivePoolWeight_nil [DecidableEq β] (acc : β → α → β) (u v : β) :
    naivePoolWeight acc u [] v = if u = v then 1 else 0 := by
  simp [naivePoolWeight, jointAssignments]

theorem naivePoolWeight_cons [DecidableEq β] (acc : β → α → β) (u : β)
    (d : Outcomes α) (ds : List (Outcomes α)) (v : β) :
    naivePoolWeight acc u (d :: ds) v =
      (d.map (fun de => de.2 * naivePoolWeight acc (acc u de.1) ds v)).sum := by
  induction d with
  | nil => simp [naivePoolWeight, jointAssignments]
  | cons de rest ih =>
    have hhead : (((jointAssignments ds).map
        (fun p : List α × ℚ => (de.1 :: p.1, de.2 * p.2))).map
        (fun p : List α × ℚ => if p.1.foldl acc u = v then p.2 else 0)).sum =
        de.2 * naivePoolWeight acc (acc u de.1) ds v := by
      rw [List.map_map]
      have hfun : ((fun p : List α × ℚ => if p.1.foldl acc u = v then p.2 else 0) ∘
          (fun p : List α × ℚ => (de.1 :: p.1, de.2 * p.2))) =
          (fun p : List α × ℚ =>
            de.2 * (if p.1.foldl acc (acc u de.1) = v then p.2 else 0)) := by
        funext p
        by_cases h : p.1.foldl acc (acc u de.1) = v <;>
          simp [Function.comp_def, List.foldl_cons, h]
      rw [hfun, List.sum_map_mul_left]
      rfl
    have hexp : naivePoolWeight acc u ((de :: rest) :: ds) v =
        (((jointAssignments ds).map
          (fun p : List α × ℚ => (de.1 :: p.1, de.2 * p.2))).map
          (fun p : List α × ℚ => if p.1.foldl acc u = v then p.2 else 0)).sum +
        naivePoolWeight acc u (rest :: ds) v := by
      simp only [naivePoolWeight, jointAssignments, List.flatMap_cons, List.map_append,
        List.sum_append]
    rw [hexp, hhead, ih, List.map_cons, List.sum_cons]

theorem weightedSum_append (F : α → ℚ) (l1 l2 : Outcomes α) :
    weightedSum F (l1 ++ l2) = weightedSum F l1 + weightedSum F l2 := by
  simp [weightedSum]

theorem weightedSum_add (F1 F2 : α → ℚ) (l : Outcomes α) :
    weightedSum (fun u => F1 u + F2 u) l = weightedSum F1 l + weightedSum F2 l := by
  simp [weightedSum, mul_add, List.sum_map_add]

theorem weightedSum_pool_row [DecidableEq β] (G : β → ℚ) (acc : β → α → β)
    (accumulated : Outcomes β) (de : α × ℚ) :
    weightedSum G (accumulated.map (fun ae => (acc ae.1 de.1, ae.2 * de.2))) =
      weightedSum (fun u => de.2 * G (acc u de.1)) accumulated := by
  induction accumulated with
  | nil => simp [weightedSum]
  | cons ae rest ih =>
    simp only [List.map_cons, weightedSum_cons, ih]
    ring

theorem weightedSum_pool_cross [DecidableEq β] (G : β → ℚ) (acc : β → α → β)
    (accumulated : Outcomes β) (d : Outcomes α) :
    weightedSum G
        (d.flatMap (fun de => accumulated.map (fun ae => (acc ae.1 de.1, ae.2 * de.2)))) =
      weightedSum (fun u => (d.map (fun de => de.2 * G (acc u de.1))).sum) accumulated := by
  induction d with
  | nil => simp [weightedSum]
  | cons de rest ih =>
    rw [List.flatMap_cons, weightedSum_append, ih, weightedSum_pool_row, ← weightedSum_add]
    refine congrArg (fun F => weightedSum F accumulated) ?_
    funext u
    simp

theorem sumWeight_foldl_poolStep [DecidableEq β] (acc : β → α → β) (ds : List (Outcomes α)) :
    ∀ (accumulated : Outcomes β) (v : β),
      sumWeight v (ds.foldl (poolStep acc) accumulated) =
        weightedSum (fun u => naivePoolWeight acc u ds v) accumulated := by
  induction ds with
  | nil =>
    intro accumulated v
    rw [List.foldl_nil, sumWeight_eq_weightedSum]
    refine congrArg (fun F => weightedSum F accumulated) ?_
    funext u
    rw [naivePoolWeight_nil]
  | cons d ds ih =>
    intro accumulated v
    rw [List.foldl_cons, ih, poolStep, weightedSum_injectAll, weightedSum_nil, zero_add,
      weightedSum_pool_cross]
    refine congrArg (fun F => weightedSum F accumulated) ?_
    funext u
    exact (naivePoolWeight_cons acc u d ds v).symm

/-- C1: for every accumulator function, initial value and finite sequence of
distributions, `pool` agrees with the naive reference computation — the
weight it assigns to each accumulator value `v` is the summed weight of all
joint assignments whose left-to-right fold from `initial` produces a value
structurally equal to `v`, each assignment weighted by the product of its
chosen outcomes' weights — and the empty pool is exactly the one-entry
distribution `{initial: 1}`. -/
theorem pool_refines_joint_enumeration [DecidableEq β] (acc : β → α → β) (initial : β)
    (dice : List (Outcomes α)) :
    (∀ v, sumWeight v (Die.pool acc initial dice) = naivePoolWeight acc initial dice v) ∧
    Die.pool acc initial [] = [(initial, 1)] := by
  refine ⟨fun v => ?_, rfl⟩
  rw [Die.pool, sumWeight_foldl_poolStep]
  simp [weightedSum]

/-! ## C5: the deep copy before each accumulator-callback call

`main.ts`'s `pool` stores its running accumulator values as mutable JS
objects and calls `accumulatorCallback(deepCopy(outcome.value),
dieResult.value)` for every (die entry, accumulated entry) branch of a fold
step.  We make the object store explicit: a heap `List U` of accumulator
objects addressed by index, with each accumulated entry holding a reference
into the heap.  A callback is characterised by two pure functions of the
observed accumulator value and the die outcome: `ret` (the value it
returns) and `mutEff` (the value its in-place mutations leave behind in its
accumulator argument object).  Each branch reads the object at its entry's
reference, allocates a deep copy as a fresh object, lets the callback
mutate the copy, and keeps the returned value. -/

/-- Process the branches of one fold step of `main.ts`'s `pool`, threading
the heap.  Returns the final heap, the branch result entries
`(returned value, accumulatedProbability * dieProbability)` in order, and
the trace of `(accumulator value observed by the callback, die outcome)`
argument pairs. -/
def runBranches {T : Type u} {U : Type v} (ret mutEff : U → T → U) (dflt : U) :
    List U → List ((ℕ × ℚ) × (T × ℚ)) → List U × List (U × ℚ) × List (U × T)
  | h, [] => (h, [], [])
  | h, (ae, de) :: rest =>
    let u := h.getD ae.1 dflt
    let h2 := (h ++ [u]).set h.length (mutEff u de.1)
    let out := runBranches ret mutEff dflt h2 rest
    (out.1, (ret u de.1, ae.2 * de.2) :: out.2.1, (u, de.1) :: out.2.2)

/-- Store each merged step result as a fresh accumulator object on the heap,
returning the new heap and the entries referencing the stored objects. -/
def allocAll {U : Type v} : List U → Outcomes U → List U × List (ℕ × ℚ)
  | h, [] => (h, [])
  | h, e :: rest =>
    let out := allocAll (h ++ [e.1]) rest
    (out.1, (h.length, e.2) :: out.2)

/-- One fold step of the heap-explicit `pool` of `main.ts`: enumerate the
branches (outer loop over the die's entries, inner over the accumulated
entries), run them with per-branch deep copies, merge the results through
the merge primitive, and store the merged values as fresh objects. -/
def stepHeap {T : Type u} {U : Type v} [DecidableEq U] (ret mutEff : U → T → U) (dflt : U)
    (st : List U × List (ℕ × ℚ) × List (U × T)) (die : Outcomes T) :
    List U × List (ℕ × ℚ) × List (U × T) :=
  let branches := die.flatMap (fun de => st.2.1.map (fun ae => (ae, de)))
  let out := runBranches ret mutEff dflt st.1 branches
  let merged := injectAll [] out.2.1
  let alloc := allocAll out.1 merged
  (alloc.1, alloc.2, st.2.2 ++ out.2.2)

/-- The heap-explicit `pool` of `main.ts`: fold the steps over the dice,
seeded with a heap holding the initial accumulator object and the one-entry
distribution referencing it. -/
def poolHeap {T : Type u} {U : Type v} [DecidableEq U] (ret mutEff : U → T → U)
    (initial : U) (dice : List (Outcomes T)) :
    List U × List (ℕ × ℚ) × List (U × T) :=
  dice.foldl (stepHeap ret mutEff initial) ([initial], [(0, 1)], [])

/-- Read the accumulator objects of a list of entries out of the heap. -/
def entriesVals {U : Type v} (dflt : U) (h : List U) (es : List (ℕ × ℚ)) : Outcomes U :=
  es.map (fun ae => (h.getD ae.1 dflt, ae.2))

/-- The argument pairs a pure, non-mutating engine would pass to the
accumulator callback, step by step: for each die, every (die entry,
running entry) branch of the pure fold. -/
def poolStepsTrace {T : Type u} {U : Type v} [DecidableEq U] (ret : U → T → U) :
    Outcomes U → List (Outcomes T) → List (U × T)
  | _, [] => []
  | d0, die :: dice =>
    (die.flatMap (fun de => d0.map (fun ae => (ae.1, de.1)))) ++
      poolStepsTrace ret (poolStep ret d0 die) dice

theorem set_append_len {U : Type v} (h : List U) (u x : U) :
    (h ++ [u]).set h.length x = h ++ [x] := by
  induction h with
  | nil => rfl
  | cons a h ih => simp [ih]

theorem runBranches_spec {T : Type u} {U : Type v} (ret mutEff : U → T → U) (dflt : U) :
    ∀ (bs : List ((ℕ × ℚ) × (T × ℚ))) (h : List U),
      (∀ b ∈ bs, b.1.1 < h.length) →
      ∃ ext : List U,
        runBranches ret mutEff dflt h bs =
          (h ++ ext,
            bs.map (fun b => (ret (h.getD b.1.1 dflt) b.2.1, b.1.2 * b.2.2)),
            bs.map (fun b => (h.getD b.1.1 dflt, b.2.1))) := by
  intro bs
  induction bs with
  | nil =>
    intro h _
    exact ⟨[], by simp [runBranches]⟩
  | cons b rest ih =>
    intro h hwf
    have hb : b.1.1 < h.length := hwf b (List.mem_cons_self b rest)
    obtain ⟨ae, de⟩ := b
    set u := h.getD ae.1 dflt with hu
    set x := mutEff u de.1 with hx
    have hset : (h ++ [u]).set h.length x = h ++ [x] := set_append_len h u x
    have hwf2 : ∀ b2 ∈ rest, b2.1.1 < (h ++ [x]).length := by
      intro b2 hb2
      have := hwf b2 (List.mem_cons_of_mem _ hb2)
      simp only [List.length_append, List.length_cons, List.length_nil]
      omega
    obtain ⟨ext, hext⟩ := ih (h ++ [x]) hwf2
    refine ⟨x :: ext, ?_⟩
    have hread : ∀ b2 ∈ rest, (h ++ [x]).getD b2.1.1 dflt = h.getD b2.1.1 dflt := by
      intro b2 hb2
      exact List.getD_append h [x] dflt b2.1.1 (hwf b2 (List.mem_cons_of_mem _ hb2))
    have hmap1 : rest.map (fun b2 => (ret ((h ++ [x]).getD b2.1.1 dflt) b2.2.1, b2.1.2 * b2.2.2)) =
        rest.map (fun b2 => (ret (h.getD b2.1.1 dflt) b2.2.1, b2.1.2 * b2.2.2)) :=
      List.map_congr_left (fun b2 hb2 => by rw [hread b2 hb2])
    have hmap2 : rest.map (fun b2 => ((h ++ [x]).getD b2.1.1 dflt, b2.2.1)) =
        rest.map (fun b2 => (h.getD b2.1.1 dflt, b2.2.1)) :=
      List.map_congr_left (fun b2 hb2 => by rw [hread b2 hb2])
    show runBranches ret mutEff dflt h ((ae, de) :: rest) = _
    rw [runBranches]
    simp only [← hu, ← hx, hset, hext, hmap1, hmap2, List.map_cons]
    refine congrArg (fun l => (l, _, _)) ?_
    rw [List.append_cons h x ext]

theorem allocAll_spec {U : Type v} (dflt : U) :
    ∀ (merged : Outcomes U) (h : List U),
      (allocAll h merged).1 = h ++ merged.map (fun e => e.1) ∧
      (∀ ae ∈ (allocAll h merged).2, ae.1 < (allocAll h merged).1.length) ∧
      entriesVals dflt (allocAll h merged).1 (allocAll h merged).2 = merged := by
  intro merged
  induction merged with
  | nil =>
    intro h
    refine ⟨by simp [allocAll], by simp [allocAll], by simp [allocAll, entriesVals]⟩
  | cons e rest ih =>
    intro h
    obtain ⟨ih1, ih2, ih3⟩ := ih (h ++ [e.1])
    have hheap : (allocAll h (e :: rest)).1 = h ++ (e :: rest).map (fun e => e.1) := by
      rw [allocAll, ih1]
      simp
    refine ⟨hheap, ?_, ?_⟩
    · intro ae hae
      rw [allocAll] at hae
      simp only [List.mem_cons] at hae
      rcases hae with rfl | hae
      · rw [hheap]
        simp only [List.length_append, List.length_map, List.length_cons]
        omega
      · have := ih2 ae hae
        rw [allocAll]
        exact this
    · have hget : (allocAll (h ++ [e.1]) rest).1.getD h.length dflt = e.1 := by
        rw [ih1, List.append_assoc]
        rw [List.getD_append_right h ([e.1] ++ rest.map (fun e => e.1)) dflt h.length le_rfl]
        simp
      show ((allocAll (h ++ [e.1]) rest).1.getD h.length dflt, e.2) ::
          entriesVals dflt (allocAll (h ++ [e.1]) rest).1 (allocAll (h ++ [e.1]) rest).2 =
          e :: rest
      rw [hget, ih3]

theorem stepHeap_unfold {T : Type u} {U : Type v} [DecidableEq U] (ret mutEff : U → T → U)
    (dflt : U) (h : List U) (es : List (ℕ × ℚ)) (tr : List (U × T)) (die : Outcomes T) :
    stepHeap ret mutEff dflt (h, es, tr) die =
      ((allocAll (runBranches ret mutEff dflt h
          (die.flatMap (fun de => es.map (fun ae => (ae, de))))).1
        (injectAll [] (runBranches ret mutEff dflt h
          (die.flatMap (fun de => es.map (fun ae => (ae, de))))).2.1)).1,
       (allocAll (runBranches ret mutEff dflt h
          (die.flatMap (fun de => es.map (fun ae => (ae, de))))).1
        (injectAll [] (runBranches ret mutEff dflt h
          (die.flatMap (fun de => es.map (fun ae => (ae, de))))).2.1)).2,
       tr ++ (runBranches ret mutEff dflt h
          (die.flatMap (fun de => es.map (fun ae => (ae, de))))).2.2) := rfl

theorem stepHeap_spec {T : Type u} {U : Type v} [DecidableEq U] (ret mutEff : U → T → U)
    (dflt : U) (h : List U) (es : List (ℕ × ℚ)) (tr : List (U × T)) (die : Outcomes T)
    (hwf : ∀ ae ∈ es, ae.1 < h.length) :
    (∀ ae ∈ (stepHeap ret mutEff dflt (h, es, tr) die).2.1,
        ae.1 < (stepHeap ret mutEff dflt (h, es, tr) die).1.length) ∧
    entriesVals dflt (stepHeap ret mutEff dflt (h, es, tr) die).1
        (stepHeap ret mutEff dflt (h, es, tr) die).2.1 =
      poolStep ret (entriesVals dflt h es) die ∧
    (stepHeap ret mutEff dflt (h, es, tr) die).2.2 =
      tr ++ die.flatMap (fun de => (entriesVals dflt h es).map (fun ae => (ae.1, de.1))) := by
  have hwfb : ∀ b ∈ die.flatMap (fun de => es.map (fun ae => (ae, de))), b.1.1 < h.length := by
    intro b hb
    simp only [List.mem_flatMap, List.mem_map] at hb
    obtain ⟨de, _, ae, hae, rfl⟩ := hb
    exact hwf ae hae
  obtain ⟨ext, hrun⟩ := runBranches_spec ret mutEff dflt
    (die.flatMap (fun de => es.map (fun ae => (ae, de)))) h hwfb
  have hres : (die.flatMap (fun de => es.map (fun ae => (ae, de)))).map
        (fun b => (ret (h.getD b.1.1 dflt) b.2.1, b.1.2 * b.2.2)) =
      die.flatMap (fun de =>
        (entriesVals dflt h es).map (fun ae => (ret ae.1 de.1, ae.2 * de.2))) := by
    rw [List.map_flatMap]
    simp [List.map_map, entriesVals, Function.comp_def]
  have htr2 : (die.flatMap (fun de => es.map (fun ae => (ae, de)))).map
        (fun b => (h.getD b.1.1 dflt, b.2.1)) =
      die.flatMap (fun de => (entriesVals dflt h es).map (fun ae => (ae.1, de.1))) := by
    rw [List.map_flatMap]
    simp [List.map_map, entriesVals, Function.comp_def]
  obtain ⟨ha1, ha2, ha3⟩ := allocAll_spec dflt
    (injectAll [] ((die.flatMap (fun de => es.map (fun ae => (ae, de)))).map
      (fun b => (ret (h.getD b.1.1 dflt) b.2.1, b.1.2 * b.2.2)))) (h ++ ext)
  have hstep : stepHeap ret mutEff dflt (h, es, tr) die =
      ((allocAll (h ++ ext)
          (injectAll [] ((die.flatMap (fun de => es.map (fun ae => (ae, de)))).map
            (fun b => (ret (h.getD b.1.1 dflt) b.2.1, b.1.2 * b.2.2))))).1,
       (allocAll (h ++ ext)
          (injectAll [] ((die.flatMap (fun de => es.map (fun ae => (ae, de)))).map
            (fun b => (ret (h.getD b.1.1 dflt) b.2.1, b.1.2 * b.2.2))))).2,
       tr ++ (die.flatMap (fun de => es.map (fun ae => (ae, de)))).map
          (fun b => (h.getD b.1.1 dflt, b.2.1))) := by
    rw [stepHeap_unfold, hrun]
  refine ⟨?_, ?_, ?_⟩
  · simp only [hstep]
    exact ha2
  · simp only [hstep]
    rw [ha3, poolStep, ← hres]
  · simp only [hstep]
    rw [htr2]

theorem poolHeap_foldl_spec {T : Type u} {U : Type v} [DecidableEq U] (ret mutEff : U → T → U)
    (dflt : U) :
    ∀ (dice : List (Outcomes T)) (h : List U) (es : List (ℕ × ℚ)) (tr : List (U × T)),
      (∀ ae ∈ es, ae.1 < h.length) →
      entriesVals dflt (dice.foldl (stepHeap ret mutEff dflt) (h, es, tr)).1
          (dice.foldl (stepHeap ret mutEff dflt) (h, es, tr)).2.1 =
        dice.foldl (poolStep ret) (entriesVals dflt h es) ∧
      (dice.foldl (stepHeap ret mutEff dflt) (h, es, tr)).2.2 =
        tr ++ poolStepsTrace ret (entriesVals dflt h es) dice := by
  intro dice
  induction dice with
  | nil =>
    intro h es tr hwf
    exact ⟨rfl, by simp [poolStepsTrace]⟩
  | cons die rest ih =>
    intro h es tr hwf
    obtain ⟨hw, hev, htr⟩ := stepHeap_spec ret mutEff dflt h es tr die hwf
    obtain ⟨h1, h2⟩ := ih (stepHeap ret mutEff dflt (h, es, tr) die).1
      (stepHeap ret mutEff dflt (h, es, tr) die).2.1
      (stepHeap ret mutEff dflt (h, es, tr) die).2.2 hw
    rw [List.foldl_cons, List.foldl_cons]
    constructor
    · rw [hev] at h1
      exact h1
    · rw [poolStepsTrace]
      calc (rest.foldl (stepHeap ret mutEff dflt) (stepHeap ret mutEff dflt (h, es, tr) die)).2.2
          = (stepHeap ret mutEff dflt (h, es, tr) die).2.2 ++
              poolStepsTrace ret
                (entriesVals dflt (stepHeap ret mutEff dflt (h, es, tr) die).1
                  (stepHeap ret mutEff dflt (h, es, tr) die).2.1) rest := h2
        _ = (tr ++ die.flatMap (fun de =>
                (entriesVals dflt h es).map (fun ae => (ae.1, de.1)))) ++
              poolStepsTrace ret (poolStep ret (entriesVals dflt h es) die) rest := by
            rw [hev, htr]
        _ = tr ++ (die.flatMap (fun de =>
                (entriesVals dflt h es).map (fun ae => (ae.1, de.1))) ++
              poolStepsTrace ret (poolStep ret (entriesVals dflt h es) die) rest) := by
            rw [List.append_assoc]

/-- C5: the pool aggregator of `main.ts` passes each individual call of the
accumulator callback an independently owned deep copy of the running
accumulator value.  Whatever value a callback's in-place mutation of its
accumulator argument leaves behind (`mutEff`, arbitrary), both the
distribution computed by the heap-explicit pool and the trace of
accumulator values the callback observes are exactly those of the pure
left fold determined by the returned values (`ret`) alone — so mutation in
one branch of the fold never affects the accumulator value observed by any
sibling branch. -/
theorem pool_deepcopy_no_cross_branch_interference {T : Type u} {U : Type v} [DecidableEq U]
    (ret mutEff : U → T → U) (initial : U) (dice : List (Outcomes T)) :
    entriesVals initial (poolHeap ret mutEff initial dice).1
        (poolHeap ret mutEff initial dice).2.1 = Die.pool ret initial dice ∧
    (poolHeap ret mutEff initial dice).2.2 = poolStepsTrace ret [(initial, 1)] dice := by
  obtain ⟨h1, h2⟩ := poolHeap_foldl_spec ret mutEff initial dice [initial] [(0, 1)] []
    (by
      intro ae hae
      simp only [List.mem_singleton] at hae
      subst hae
      simp)
  exact ⟨h1, h2⟩
